import Mathlib

/-!
Shallow embedding of the grid utility module `aoc_wim/zgrid.py`.

Positions are Gaussian integers (`column + row*i`), modelled by the structure
`Zc` below.  Python dicts are modelled by insertion-ordered association lists
(`List (Zc × Char)`); dict lookup is `List.lookup`, which returns the first
match — since dict keys are unique this coincides with Python dict access.
Python exceptions are modelled by `Option`/`Except` result types; a Python
function that falls off its end and returns the `None` object (as `ZGrid.near`
does for unsupported arities) is modelled by a dedicated constructor so that a
normal `None` return is distinguishable from a raised exception.
-/

/-- A grid position `x + y*i`: `re` is the column, `im` is the row
(mirrors the complex numbers used as keys in `zgrid.py`). -/
structure Zc where
  re : Int
  im : Int
deriving DecidableEq

instance : Add Zc := ⟨fun a b => ⟨a.re + b.re, a.im + b.im⟩⟩

instance : Sub Zc := ⟨fun a b => ⟨a.re - b.re, a.im - b.im⟩⟩

instance (n : Nat) : OfNat Zc n := ⟨⟨Int.ofNat n, 0⟩⟩

/-- The imaginary unit `1j` (one step down, since rows grow downward). -/
def Zc.I : Zc := ⟨0, 1⟩

/-- `class ZDict(dict)`: a dict backed by `func`, filling missing keys on
first access (`__missing__`).  The key-type check in `__missing__` is static
here (keys are `Zc` by construction). -/
structure ZDict where
  func : Zc → Char
  d : List (Zc × Char)

/-- `ZDict.__init__(func)`: fresh lazy dict, no stored entries. -/
def ZDict.init (f : Zc → Char) : ZDict := ⟨f, []⟩

/-- One dict read `zd[z]`.  Returns the value, the updated dict, and the number
of invocations of the backing function performed by this read (0 on a hit,
1 when `__missing__` computes, stores and returns `func z`). -/
def ZDict.get (m : ZDict) (z : Zc) : Char × ZDict × Nat :=
  match m.d.lookup z with
  | some v => (v, m, 0)
  | none => (m.func z, ⟨m.func, m.d ++ [(z, m.func z)]⟩, 1)

/-- `class ZGrid`: `onGlyph`/`offGlyph` are the source's `on`/`off`
attributes (`on` is a Lean keyword), the two distinguished glyphs fixed at
construction (defaults `'#'`/`'.'`); `d` is the backing dict (finite,
dict-backed grids; the callable-backed variant is modelled by `ZDict`). -/
structure ZGrid where
  onGlyph : Char
  offGlyph : Char
  d : List (Zc × Char)

/-- `ZGrid.z(val, first=True)`: linear scan over stored cells in insertion
order; with `first` the first matching position is returned, otherwise the
list of all matches.  Python returns either a position or a list, so the
result is a sum. -/
def zFind (val : Char) (first : Bool) : List (Zc × Char) → List Zc → Sum Zc (List Zc)
  | [], zs => .inr zs
  | (k, v) :: rest, zs =>
    if v = val then
      if first then .inl k else zFind val first rest (zs ++ [k])
    else zFind val first rest zs

/-- `ZGrid.z(val, first)` entry point (empty accumulator). -/
def ZGrid.zq (g : ZGrid) (val : Char) (first : Bool) : Sum Zc (List Zc) :=
  zFind val first g.d []

/-- Result of `ZGrid.near`: either a list of positions, or the Python `None`
object — `near` has no `else` branch, so for arities other than 4 and 8 the
function returns `None` normally (no exception is raised). -/
inductive NearResult where
  | lst (zs : List Zc)
  | noneval
deriving DecidableEq

/-- The arity-4 neighbor list `[z - 1j, z + 1, z + 1j, z - 1]`
(up, right, down, left). -/
def near4 (z : Zc) : List Zc := [z - Zc.I, z + 1, z + Zc.I, z - 1]

/-- `ZGrid.near(z, n=4)` (`self` is unused by the source method). -/
def ZGrid.near (z : Zc) (n : Nat) : NearResult :=
  if n = 4 then .lst (near4 z)
  else if n = 8 then
    .lst [z - 1 - Zc.I, z - Zc.I, z + 1 - Zc.I,
          z - 1, z + 1,
          z - 1 + Zc.I, z + Zc.I, z + 1 + Zc.I]
  else .noneval

/-- `ZGrid.translate(table)`: one pass over the stored cells (keys are not
touched, so iterating while mutating values is safe); each glyph that is a key
of `table` is replaced by its image, each other glyph is kept. -/
def ZGrid.translate (g : ZGrid) (table : List (Char × Char)) : ZGrid :=
  ⟨g.onGlyph, g.offGlyph, g.d.map (fun p => (p.1, (table.lookup p.2).getD p.2))⟩

/-- `del grid[z]` (`ZGrid.__delitem__`): remove the stored cell at `z`. -/
def ZGrid.delItem (g : ZGrid) (z : Zc) : ZGrid :=
  ⟨g.onGlyph, g.offGlyph, g.d.filter (fun p => p.1 != z)⟩

/-- The denotation of Python `range(a, b, s)` as a list of `Int`s: its length
is `max 0 (ceil ((b - a) / s))` (clamping makes truncated and floored
division agree), and element `i` is `a + i * s`.  A zero step is a
`ValueError` in Python; `zrange` guards against it before calling this. -/
def intRange (a b s : Int) : List Int :=
  (List.range (if 0 < s then (max 0 ((b - a + s - 1) / s)).toNat
               else (max 0 ((a - b - s - 1) / (-s))).toNat)).map
    (fun i => a + i * s)

/-- The body of `zrange` shared by all arities:
`[complex(x, y) for y in ys for x in xs]` with
`xs = range(start.real, stop.real, step.real)` and
`ys = range(start.imag, stop.imag, step.imag)`.
A zero step component is Python's `ValueError` from `range`. -/
def zrangeCore (start stop step : Zc) : Except String (List Zc) :=
  if step.re = 0 || step.im = 0 then .error "range arg 3 must not be zero"
  else .ok (((intRange start.im stop.im step.im).map (fun y =>
    (intRange start.re stop.re step.re).map (fun x => Zc.mk x y))).flatten)

/-- `zrange(*args)`: the variadic argument tuple is modelled as a list.
One argument is `stop` alone, two are `start, stop`, three are
`start, stop, step`; any other count raises `TypeError`. -/
def zrange (args : List Zc) : Except String (List Zc) :=
  match args with
  | [stop] => zrangeCore ⟨0, 0⟩ stop ⟨1, 1⟩
  | [start, stop] => zrangeCore start stop ⟨1, 1⟩
  | [start, stop, step] => zrangeCore start stop step
  | _ => .error "zrange expected 1-3 arguments"

/-- The `while queue:` loop of `ZGrid.bfs`, with an explicit fuel parameter
to make the recursion structural (an adequate fuel is supplied by
`ZGrid.bfs`; every branch consumes one unit per dequeue, exactly like one
iteration of the Python loop).  `seen` is the result dict being built, in
insertion order; `queue` is the FIFO deque of `(position, depth)` pairs. -/
def bfsAux (g : ZGrid) (target : Option Zc) (maxDepth : Option Nat) :
    Nat → List (Zc × Nat) → List (Zc × Nat) → List (Zc × Nat)
  | 0, seen, _ => seen
  | fuel + 1, seen, queue =>
    match queue with
    | [] => seen
    | (z0, depth) :: rest =>
      if (match maxDepth with | some m => decide (m < depth) | none => false) then seen
      else if (seen.lookup z0).isSome then bfsAux g target maxDepth fuel seen rest
      else
        let seen2 := seen ++ [(z0, depth)]
        if target = some z0 then seen2
        else
          bfsAux g target maxDepth fuel seen2
            (rest ++ (near4 z0).filterMap (fun z =>
              if (seen2.lookup z).isSome then none
              else match g.d.lookup z with
                | none => none
                | some glyph => if glyph = g.onGlyph then some (z, depth + 1) else none))

/-- `ZGrid.bfs(target=None, z0=0, max_depth=None)`.  `none` models a raised
exception: `KeyError` when `self[z0]` is absent, `NotImplementedError` when
the start glyph is not `on`.  The fuel `4 * |d| + 2` dominates the number of
loop iterations: at most `1 + 4 * |d|` pairs are ever enqueued (the start,
plus at most four per stored cell that enters `seen`). -/
def ZGrid.bfs (g : ZGrid) (target : Option Zc) (z0 : Zc) (maxDepth : Option Nat) :
    Option (List (Zc × Nat)) :=
  match g.d.lookup z0 with
  | none => none
  | some g0 =>
    if g0 = g.onGlyph then
      some (bfsAux g target maxDepth (4 * g.d.length + 2) [] [(z0, 0)])
    else none

/-- The `networkx.Graph` built by `ZGrid.graph`: node list, undirected edge
list (each edge recorded once, in first-insertion order and orientation) and
the `extra` glyph-to-position markers. -/
structure Graph where
  nodes : List Zc
  edges : List (Zc × Zc)
  extra : List (Char × Zc)
deriving DecidableEq

/-- The empty `networkx.Graph`. -/
def Graph.emptyG : Graph := ⟨[], [], []⟩

/-- `networkx.Graph.add_node`: idempotent node insertion. -/
def Graph.addNode (G : Graph) (z : Zc) : Graph :=
  if G.nodes.contains z then G else ⟨G.nodes ++ [z], G.edges, G.extra⟩

/-- Whether the undirected edge `{a, b}` is already present. -/
def Graph.hasEdge (G : Graph) (a b : Zc) : Bool :=
  G.edges.any (fun e => (e.1 == a && e.2 == b) || (e.1 == b && e.2 == a))

/-- `networkx.Graph.add_edge`: adds missing endpoints, then the edge if new. -/
def Graph.addEdge (G : Graph) (a b : Zc) : Graph :=
  if ((G.addNode a).addNode b).hasEdge a b then (G.addNode a).addNode b
  else ⟨((G.addNode a).addNode b).nodes,
        ((G.addNode a).addNode b).edges ++ [(a, b)],
        ((G.addNode a).addNode b).extra⟩

/-- `g.extra[glyph] = pos` (the marker dict of the graph). -/
def Graph.addExtra (G : Graph) (glyph : Char) (pos : Zc) : Graph :=
  ⟨G.nodes, G.edges, G.extra ++ [(glyph, pos)]⟩

/-- The `g.add_node(pos)` plus `if glyph != self.on: g.extra[glyph] = pos`
steps of the `ZGrid.graph` loop body. -/
def graphStepNode (g : ZGrid) (G : Graph) (pos : Zc) (glyph : Char) : Graph :=
  if glyph ≠ g.onGlyph then (G.addNode pos).addExtra glyph pos else G.addNode pos

/-- The `if self.d.get(right) in node_glyphs: g.add_edge(pos, right)` step
(a missing neighbor yields Python `None`, never a member of the glyph set). -/
def graphStepRight (g : ZGrid) (nodeGlyphs : List Char) (G : Graph) (pos : Zc) : Graph :=
  if (match g.d.lookup (pos + 1) with
      | some gl => nodeGlyphs.contains gl
      | none => false) then G.addEdge pos (pos + 1) else G

/-- The `if self.d.get(down) in node_glyphs: g.add_edge(pos, down)` step. -/
def graphStepDown (g : ZGrid) (nodeGlyphs : List Char) (G : Graph) (pos : Zc) : Graph :=
  if (match g.d.lookup (pos + Zc.I) with
      | some gl => nodeGlyphs.contains gl
      | none => false) then G.addEdge pos (pos + Zc.I) else G

/-- One iteration of the `for pos, glyph in self.d.items():` loop of
`ZGrid.graph`: cells whose glyph is in `node_glyphs` (`{on} ∪ extra`) become
nodes, non-`on` node glyphs are recorded in `extra`, and edges go to the
right and down neighbors when those are stored with a node glyph. -/
def graphStep (g : ZGrid) (nodeGlyphs : List Char) (G : Graph) (item : Zc × Char) : Graph :=
  if nodeGlyphs.contains item.2 then
    graphStepDown g nodeGlyphs
      (graphStepRight g nodeGlyphs (graphStepNode g G item.1 item.2) item.1) item.1
  else G

/-- `ZGrid.graph(extra=())`: fold the loop body over the stored cells in
insertion order, starting from an empty graph. -/
def ZGrid.graph (g : ZGrid) (extra : List Char) : Graph :=
  g.d.foldl (graphStep g (g.onGlyph :: extra)) Graph.emptyG

/-- Neighbors of `z` in the undirected graph, reading the edge list. -/
def Graph.adj (G : Graph) (z : Zc) : List Zc :=
  G.edges.foldr (fun e acc =>
    if e.1 = z then e.2 :: acc else if e.2 = z then e.1 :: acc else acc) []

/-- Modelled from the spec: the BFS loop of `networkx.shortest_path_length`
(the library call is external to the repository).  Per spec §4.4 it is a
standard unweighted breadth-first shortest path: FIFO frontier of
`(node, distance)` pairs, nodes marked when enqueued, `none` when the target
is unreachable.  Fuel is structural; each node is enqueued at most once. -/
def splAux (G : Graph) (target : Zc) : Nat → List Zc → List (Zc × Nat) → Option Nat
  | 0, _, _ => none
  | fuel + 1, seen, queue =>
    match queue with
    | [] => none
    | (z, dist) :: rest =>
      if z = target then some dist
      else
        let ns := (G.adj z).filter (fun w => !(seen.contains w))
        splAux G target fuel (seen ++ ns) (rest ++ ns.map (fun w => (w, dist + 1)))

/-- Modelled from the spec: `networkx.shortest_path_length(G, source, target)`
— fails (`NodeNotFound` / `NetworkXNoPath`) if an endpoint is not a node or
no path exists, else the hop count of a shortest path.  Each node enters the
queue at most once, so `|nodes| + 1` fuel covers every iteration. -/
def Graph.spl (G : Graph) (source target : Zc) : Option Nat :=
  if G.nodes.contains source && G.nodes.contains target then
    splAux G target (G.nodes.length + 1) [source] [(source, 0)]
  else none

/-- `ZGrid.path_length(z, z0=0)`: rebuild the graph, then query the library
shortest-path length from `z0` to `z`. -/
def ZGrid.pathLength (g : ZGrid) (z : Zc) (z0 : Zc) : Option Nat :=
  (g.graph []).spl z0 z

/-- The inner `for col, char in enumerate(line):` loop of `ZGrid.__init__`:
cells of one text row, starting at column `col`. -/
def lineCells (row : Int) : Int → List Char → List (Zc × Char)
  | _, [] => []
  | col, ch :: rest => (Zc.mk col row, ch) :: lineCells row (col + 1) rest

/-- The outer `for row, line in enumerate(initial_data.splitlines()):` loop of
`ZGrid.__init__`, starting at row index `row`. -/
def gridCells : Int → List (List Char) → List (Zc × Char)
  | _, [] => []
  | row, line :: rest => lineCells row 0 line ++ gridCells (row + 1) rest

/-- `ZGrid(initial_data)` for a text block, given as its list of lines
(`str.splitlines` applied): character at line `row`, offset `col` becomes the
glyph at `col + row*1j`. -/
def ZGrid.ofLines (lines : List (List Char)) (onc offc : Char) : ZGrid :=
  ⟨onc, offc, gridCells 0 lines⟩

/-- `np.min` over a list of ints (`none` on the empty list, whose reduction
raises in numpy). -/
def intMin : List Int → Option Int
  | [] => none
  | x :: xs => some (xs.foldl min x)

/-- `np.max` over a list of ints (`none` on the empty list). -/
def intMax : List Int → Option Int
  | [] => none
  | x :: xs => some (xs.foldl max x)

/-- `ZGrid.__array__`: the dense `(ptp(ys)+1) × (ptp(xs)+1)` row-major array,
filled with `off` and scatter-assigned `full[y - ymin, x - xmin] = v` for
every stored `(x + y*1j, v)`.  Since dict keys are unique, the scatter
assignment leaves entry `(r, c)` equal to the value stored at key
`(xmin + c) + (ymin + r)*1j` when present and `off` otherwise, which is how
it is written here.  `none` models numpy's reduction error on an empty grid. -/
def ZGrid.toArray (g : ZGrid) : Option (List (List Char)) :=
  match intMin (g.d.map (fun p => p.1.re)), intMax (g.d.map (fun p => p.1.re)),
        intMin (g.d.map (fun p => p.1.im)), intMax (g.d.map (fun p => p.1.im)) with
  | some xmin, some xmax, some ymin, some ymax =>
    some ((List.range ((ymax - ymin).toNat + 1)).map (fun (r : Nat) =>
      (List.range ((xmax - xmin).toNat + 1)).map (fun (c : Nat) =>
        (g.d.lookup (Zc.mk (xmin + (c : Int)) (ymin + (r : Int)))).getD g.offGlyph)))
  | _, _, _, _ => none

/-- Translation of a position by `t` (proof device for position-generic
claims: all grid operations commute with it). -/
def zshift (t z : Zc) : Zc := t + z

/-- Translation of a dict entry / queue entry: shift the key, keep the value. -/
def pshift {α : Type} (t : Zc) (p : Zc × α) : Zc × α := (t + p.1, p.2)

/-- Translation of a whole grid by `t`. -/
def gshift (t : Zc) (g : ZGrid) : ZGrid :=
  ⟨g.onGlyph, g.offGlyph, g.d.map (pshift t)⟩

/-- Translation of a graph by `t`. -/
def Gshift (t : Zc) (G : Graph) : Graph :=
  ⟨G.nodes.map (zshift t), G.edges.map (fun e => (t + e.1, t + e.2)),
   G.extra.map (fun e => (e.1, t + e.2))⟩

/-- A grid (default glyphs) whose stored cells are exactly the 9 positions of
the 3x3 rectangle with top-left corner `a + b*1j`, all `on`, in row-major
(text construction) order. -/
def grid3x3 (a b : Int) : ZGrid :=
  ZGrid.mk '#' '.'
    [(⟨a, b⟩, '#'), (⟨a + 1, b⟩, '#'), (⟨a + 2, b⟩, '#'),
     (⟨a, b + 1⟩, '#'), (⟨a + 1, b + 1⟩, '#'), (⟨a + 2, b + 1⟩, '#'),
     (⟨a, b + 2⟩, '#'), (⟨a + 1, b + 2⟩, '#'), (⟨a + 2, b + 2⟩, '#')]

/-- A grid (default glyphs) whose stored cells are exactly the three
horizontally consecutive positions `p`, `p+1`, `p+2` (`p = a + b*1j`),
all `on`. -/
def lineGrid3 (a b : Int) : ZGrid :=
  ZGrid.mk '#' '.' [(⟨a, b⟩, '#'), (⟨a + 1, b⟩, '#'), (⟨a + 2, b⟩, '#')]

/-- The map returned by BFS from the center of the origin-anchored 3x3
all-`on` square, in insertion order. -/
def bfs3x3Result : List (Zc × Nat) :=
  [(⟨1, 1⟩, 0), (⟨1, 0⟩, 1), (⟨2, 1⟩, 1), (⟨1, 2⟩, 1), (⟨0, 1⟩, 1),
   (⟨2, 0⟩, 2), (⟨0, 0⟩, 2), (⟨2, 2⟩, 2), (⟨0, 2⟩, 2)]

/-! ### Position algebra -/

@[simp] theorem zc_add_mk (a b c d : Int) : Zc.mk a b + Zc.mk c d = Zc.mk (a + c) (b + d) := rfl

@[simp] theorem zc_sub_mk (a b c d : Int) : Zc.mk a b - Zc.mk c d = Zc.mk (a - c) (b - d) := rfl

@[simp] theorem zc_ofNat (n : Nat) : (OfNat.ofNat n : Zc) = Zc.mk (Int.ofNat n) 0 := rfl

@[simp] theorem zc_I_def : Zc.I = Zc.mk 0 1 := rfl

theorem zc_beq_def (x y : Zc) : (x == y) = decide (x = y) := rfl

theorem zc_add_left_cancel {t a b : Zc} : t + a = t + b ↔ a = b := by
  cases t; cases a; cases b
  simp only [zc_add_mk, Zc.mk.injEq]
  omega

theorem zc_beq_add_left (t a b : Zc) : (t + a == t + b) = (a == b) := by
  rw [zc_beq_def, zc_beq_def]
  exact decide_eq_decide.mpr zc_add_left_cancel

theorem zc_bne_add_left (t a b : Zc) : (t + a != t + b) = (a != b) := by
  simp only [bne, zc_beq_add_left]

theorem zc_shift_add (t a b : Zc) : t + (a + b) = (t + a) + b := by
  cases t; cases a; cases b
  simp only [zc_add_mk, Zc.mk.injEq]
  omega

theorem zc_shift_sub (t a b : Zc) : t + (a - b) = (t + a) - b := by
  cases t; cases a; cases b
  simp only [zc_add_mk, zc_sub_mk, Zc.mk.injEq]
  omega

/-! ### Association-list (dict) helpers -/

theorem zgLookupMapPshift {α : Type} (t z : Zc) : ∀ l : List (Zc × α),
    (l.map (pshift t)).lookup (t + z) = l.lookup z := by
  intro l
  induction l with
  | nil => rfl
  | cons p rest ih =>
    obtain ⟨k, v⟩ := p
    simp only [List.map_cons, pshift, List.lookup, zc_beq_add_left, ih]

theorem zgLookupAppend {α : Type} (k : Zc) (l1 l2 : List (Zc × α)) :
    (l1 ++ l2).lookup k =
      (match l1.lookup k with | some v => some v | none => l2.lookup k) := by
  induction l1 with
  | nil => simp [List.lookup]
  | cons p rest ih =>
    obtain ⟨a, v⟩ := p
    rcases hb : (k == a) with _ | _
    · simpa only [List.cons_append, List.lookup, hb] using ih
    · simp only [List.cons_append, List.lookup, hb]

theorem zgMemOfLookup {α : Type} {k : Zc} {v : α} : ∀ {l : List (Zc × α)},
    l.lookup k = some v → (k, v) ∈ l := by
  intro l
  induction l with
  | nil => intro h; simp [List.lookup] at h
  | cons p rest ih =>
    obtain ⟨a, w⟩ := p
    intro h
    rcases hb : (k == a) with _ | _
    · simp only [List.lookup, hb] at h
      exact List.mem_cons_of_mem _ (ih h)
    · have ha : k = a := eq_of_beq hb
      simp only [List.lookup, hb, Option.some.injEq] at h
      subst ha
      subst h
      exact List.mem_cons_self _ _

theorem zgLookupMapValue (f : Char → Char) (k : Zc) : ∀ d : List (Zc × Char),
    (d.map (fun p => (p.1, f p.2))).lookup k = (d.lookup k).map f := by
  intro d
  induction d with
  | nil => rfl
  | cons p rest ih =>
    obtain ⟨a, v⟩ := p
    rcases hb : (k == a) with _ | _
    · simp only [List.map_cons, List.lookup, hb, ih]
    · simp only [List.map_cons, List.lookup, hb]
      rfl

/-! ### C4 — lazy mapping memoization -/

/-- C4: reading a `ZDict` at a key `k` twice returns the same value both times
and invokes the backing function exactly once — on a first read of a missing
key the function is computed, stored and returned (one invocation), and any
read after a read returns the stored value with zero invocations. -/
theorem zdict_memoizes (m : ZDict) (k : Zc) :
    (m.d.lookup k = none →
      (m.get k).1 = m.func k ∧ (m.get k).2.2 = 1) ∧
    (m.get k).2.1.get k = ((m.get k).1, (m.get k).2.1, 0) := by
  constructor
  · intro h
    simp [ZDict.get, h]
  · rcases hl : m.d.lookup k with _ | v
    · have h2 : (m.d ++ [(k, m.func k)]).lookup k = some (m.func k) := by
        rw [zgLookupAppend, hl]
        simp [List.lookup]
      simp [ZDict.get, hl, h2]
    · simp [ZDict.get, hl]

theorem zdict_memoizes_witness :
    ((ZDict.init (fun _ => 'z')).get ⟨0, 0⟩).1 = 'z' ∧
      ((ZDict.init (fun _ => 'z')).get ⟨0, 0⟩).2.2 = 1 :=
  (zdict_memoizes (ZDict.init (fun _ => 'z')) ⟨0, 0⟩).1 rfl

/-! ### C6 — neighbor order -/

/-- C6: for every position, arity 4 yields exactly up, right, down, left in
that order, and arity 8 yields the 8 surrounding positions in row-major order
with the center skipped. -/
theorem near_orders (x y : Int) :
    ZGrid.near ⟨x, y⟩ 4 =
      .lst [⟨x, y - 1⟩, ⟨x + 1, y⟩, ⟨x, y + 1⟩, ⟨x - 1, y⟩] ∧
    ZGrid.near ⟨x, y⟩ 8 =
      .lst [⟨x - 1, y - 1⟩, ⟨x, y - 1⟩, ⟨x + 1, y - 1⟩,
            ⟨x - 1, y⟩, ⟨x + 1, y⟩,
            ⟨x - 1, y + 1⟩, ⟨x, y + 1⟩, ⟨x + 1, y + 1⟩] := by
  constructor <;> simp [ZGrid.near, near4]

/-! ### C8 — unsupported arity -/

/-- C8 counterexample: the claim says an unsupported arity "fails with an
invalid-arity error", but `near` has no `else` branch: at arity 3 control
falls off the end and the Python `None` object is returned normally — no
exception is raised and no error surfaces from `near` itself. -/
theorem near_arity3_counterexample : ZGrid.near ⟨0, 0⟩ 3 = NearResult.noneval := rfl

/-- C8 (amended): for every arity other than 4 and 8, `near` returns Python's
`None` (neither a neighbor list nor a raised error); any failure surfaces
only later, in a caller that tries to use the result as a list. -/
theorem near_unsupported_arity (z : Zc) (n : Nat) (h4 : n ≠ 4) (h8 : n ≠ 8) :
    ZGrid.near z n = NearResult.noneval := by
  simp [ZGrid.near, h4, h8]

theorem near_unsupported_arity_witness : ZGrid.near ⟨0, 0⟩ 5 = NearResult.noneval :=
  near_unsupported_arity ⟨0, 0⟩ 5 (by decide) (by decide)

/-! ### C9 — translate -/

/-- C9: `translate` keeps the stored positions (same keys, same order), and
each position's new glyph is `table[g]` when its old glyph `g` is a key of
the table and `g` unchanged otherwise — the table is applied at most once per
cell in the single pass, so chained entries do not compose. -/
theorem translate_frame (g : ZGrid) (table : List (Char × Char)) :
    (g.translate table).d.map Prod.fst = g.d.map Prod.fst ∧
    ∀ z v, g.d.lookup z = some v →
      (g.translate table).d.lookup z = some ((table.lookup v).getD v) := by
  constructor
  · simp [ZGrid.translate]
  · intro z v h
    show (g.d.map (fun p => (p.1, (table.lookup p.2).getD p.2))).lookup z = _
    rw [zgLookupMapValue (fun v => (table.lookup v).getD v) z g.d, h]
    rfl

theorem translate_frame_witness :
    ((ZGrid.mk '#' '.' [(⟨0, 0⟩, 'a')]).translate [('a', 'b'), ('b', 'c')]).d.lookup ⟨0, 0⟩
      = some 'b' := by
  have h := (translate_frame (ZGrid.mk '#' '.' [(⟨0, 0⟩, 'a')]) [('a', 'b'), ('b', 'c')]).2
    ⟨0, 0⟩ 'a' (by decide)
  simpa using h

/-! ### C10 — value search with no match -/

theorem zFind_no_match (val : Char) (first : Bool) : ∀ (d : List (Zc × Char)) (zs : List Zc),
    (∀ p ∈ d, p.2 ≠ val) → zFind val first d zs = .inr zs := by
  intro d
  induction d with
  | nil => intro zs _; rfl
  | cons p rest ih =>
    obtain ⟨k, v⟩ := p
    intro zs h
    have hv : v ≠ val := h (k, v) (List.mem_cons_self _ _)
    simp only [zFind, if_neg hv]
    exact ih zs (fun q hq => h q (List.mem_cons_of_mem _ hq))

/-- C10: when no stored cell's glyph equals `val`, `z(val, first=True)`
returns the empty list (the accumulator `zs`), not a position and not an
error — the same value an all-matches query over a matchless grid returns. -/
theorem zq_first_no_match (g : ZGrid) (val : Char) (h : ∀ p ∈ g.d, p.2 ≠ val) :
    g.zq val true = Sum.inr [] :=
  zFind_no_match val true g.d [] h

theorem zq_first_no_match_witness :
    (ZGrid.mk '#' '.' [(⟨0, 0⟩, '#'), (⟨1, 0⟩, '.')]).zq 'x' true = Sum.inr [] :=
  zq_first_no_match (ZGrid.mk '#' '.' [(⟨0, 0⟩, '#'), (⟨1, 0⟩, '.')]) 'x' (by decide)

/-! ### C5 — zrange -/

theorem intRange_one (a b : Int) :
    intRange a b 1 = (List.range (b - a).toNat).map (fun i => a + (i : Int)) := by
  unfold intRange
  rw [if_pos (by decide : (0 : Int) < 1)]
  have hlen : (max 0 ((b - a + 1 - 1) / 1)).toNat = (b - a).toNat := by omega
  rw [hlen]
  simp [mul_one]

/-- C5: `zrange` produces the half-open rectangle `[start, stop)` in
row-major order (rows outer, columns inner); one argument means
`start = 0`, one or two arguments mean `step = 1 + 1j`;
`zrange(3+2j)` yields exactly `[0, 1, 2, 1j, 1+1j, 2+1j]`; zero or more than
three arguments raise the argument-count `TypeError`. -/
theorem zrange_spec :
    (∀ stop : Zc, zrange [stop] = zrange [⟨0, 0⟩, stop]) ∧
    (∀ start stop : Zc, zrange [start, stop] = zrange [start, stop, ⟨1, 1⟩]) ∧
    (∀ start stop : Zc, zrange [start, stop] =
      .ok (((List.range (stop.im - start.im).toNat).map (fun yi =>
        (List.range (stop.re - start.re).toNat).map (fun xi =>
          Zc.mk (start.re + (xi : Int)) (start.im + (yi : Int))))).flatten)) ∧
    (zrange [⟨3, 2⟩] = .ok [0, 1, 2, Zc.I, 1 + Zc.I, 2 + Zc.I]) ∧
    (zrange [] = .error "zrange expected 1-3 arguments") ∧
    (∀ args : List Zc, 4 ≤ args.length →
      zrange args = .error "zrange expected 1-3 arguments") := by
  refine ⟨fun stop => rfl, fun start stop => rfl, ?_, by rfl, rfl, ?_⟩
  · intro start stop
    simp only [zrange, zrangeCore]
    rw [if_neg (by simp)]
    simp [intRange_one, List.map_map, Function.comp_def]
  · intro args h
    rcases args with _ | ⟨a, _ | ⟨b, _ | ⟨c, _ | ⟨d, rest⟩⟩⟩⟩ <;>
      first
        | rfl
        | simp at h

theorem zrange_spec_witness :
    zrange [⟨0, 0⟩, ⟨0, 0⟩, ⟨0, 0⟩, ⟨0, 0⟩] = .error "zrange expected 1-3 arguments" :=
  zrange_spec.2.2.2.2.2 [⟨0, 0⟩, ⟨0, 0⟩, ⟨0, 0⟩, ⟨0, 0⟩] (by decide)

/-! ### C7 — bfs max_depth bound -/

theorem bfsAux_depth_le (g : ZGrid) (target : Option Zc) (k : Nat) :
    ∀ (fuel : Nat) (seen queue : List (Zc × Nat)),
      (∀ p ∈ seen, p.2 ≤ k) →
      ∀ p ∈ bfsAux g target (some k) fuel seen queue, p.2 ≤ k := by
  intro fuel
  induction fuel with
  | zero =>
    intro seen queue hseen
    simpa [bfsAux] using hseen
  | succ fuel ih =>
    intro seen queue hseen
    match queue with
    | [] => simpa [bfsAux] using hseen
    | (z0, depth) :: rest =>
      simp only [bfsAux]
      by_cases hd : k < depth
      · rw [if_pos (by simpa using hd)]
        exact hseen
      · rw [if_neg (by simpa using hd)]
        by_cases hs : (List.lookup z0 seen).isSome = true
        · rw [if_pos hs]
          exact ih seen rest hseen
        · rw [if_neg hs]
          have hseen2 : ∀ p ∈ seen ++ [(z0, depth)], p.2 ≤ k := by
            intro p hp
            rcases List.mem_append.mp hp with h1 | h2
            · exact hseen p h1
            · simp at h2
              subst h2
              omega
          by_cases ht : target = some z0
          · rw [if_pos ht]
            exact hseen2
          · rw [if_neg ht]
            exact ih _ _ hseen2

/-- C7: whenever `bfs` with `max_depth = k` succeeds, every depth recorded in
the returned map is at most `k`: a dequeued pair whose depth exceeds `k`
stops the scan before being recorded, so the overflowing position is excluded
and only entries of depth ≤ k (those recorded before the stop) are kept. -/
theorem bfs_max_depth_bound (g : ZGrid) (target : Option Zc) (z0 : Zc) (k : Nat)
    (m : List (Zc × Nat)) (h : g.bfs target z0 (some k) = some m) :
    ∀ p ∈ m, p.2 ≤ k := by
  unfold ZGrid.bfs at h
  split at h
  · exact absurd h (by simp)
  · rename_i g0 hl
    by_cases hg : g0 = g.onGlyph
    · rw [if_pos hg, Option.some.injEq] at h
      subst h
      exact bfsAux_depth_le g target k _ [] [(z0, 0)] (by simp)
    · rw [if_neg hg] at h
      exact absurd h (by simp)

theorem bfs_max_depth_bound_witness : ((⟨0, 0⟩ : Zc), 0).2 ≤ 0 :=
  bfs_max_depth_bound (ZGrid.mk '#' '.' [(⟨0, 0⟩, '#'), (⟨1, 0⟩, '#'), (⟨2, 0⟩, '#')])
    none ⟨0, 0⟩ 0 [(⟨0, 0⟩, 0)] (by decide) (⟨0, 0⟩, 0) (by decide)

/-! ### Translation equivariance

Every grid operation commutes with translating all positions by a fixed
`t`; this lets the position-generic claims (a 3x3 square at an arbitrary
corner, a 3-cell line at an arbitrary `p`) be reduced to one concrete
computation at the origin. -/

theorem near4_shift (t z : Zc) : near4 (t + z) = (near4 z).map (zshift t) := by
  simp only [near4, List.map_cons, List.map_nil, zshift, zc_shift_add, zc_shift_sub]

theorem option_map_zshift_eq_some (t : Zc) (target : Option Zc) (z : Zc) :
    target.map (zshift t) = some (t + z) ↔ target = some z := by
  cases target with
  | none => simp
  | some u => simp [zshift, zc_add_left_cancel]


theorem option_match_map_pshift (t : Zc) (L : List (Zc × Nat)) (o : Option (Zc × Nat)) :
    (match o.map (pshift t) with
      | none => L.map (pshift t)
      | some b => b :: L.map (pshift t))
    = (match o with | none => L | some b => b :: L).map (pshift t) := by
  cases o <;> rfl

theorem bfs_enq_shift (g : ZGrid) (t : Zc) (depth : Nat) (s2 : List (Zc × Nat)) :
    ∀ zs : List Zc,
      ((zs.map (zshift t)).filterMap (fun z =>
        if (List.lookup z (s2.map (pshift t))).isSome = true then none
        else match List.lookup z (gshift t g).d with
          | none => none
          | some glyph => if glyph = (gshift t g).onGlyph then some (z, depth + 1) else none))
      = (zs.filterMap (fun z =>
          if (List.lookup z s2).isSome = true then none
          else match List.lookup z g.d with
            | none => none
            | some glyph => if glyph = g.onGlyph then some (z, depth + 1) else none)).map
          (pshift t) := by
  intro zs
  induction zs with
  | nil => rfl
  | cons z rest ih =>
    simp only [List.map_cons, List.filterMap_cons, zshift]
    rw [ih]
    have hf : (if (List.lookup (t + z) (s2.map (pshift t))).isSome = true then none
        else match List.lookup (t + z) (gshift t g).d with
          | none => none
          | some glyph => if glyph = (gshift t g).onGlyph then some (t + z, depth + 1) else none)
        = Option.map (pshift t)
          (if (List.lookup z s2).isSome = true then none
           else match List.lookup z g.d with
             | none => none
             | some glyph => if glyph = g.onGlyph then some (z, depth + 1) else none) := by
      rw [zgLookupMapPshift]
      rw [show List.lookup (t + z) (gshift t g).d = List.lookup z g.d from
        zgLookupMapPshift t z g.d]
      by_cases h1 : (List.lookup z s2).isSome = true
      · rw [if_pos h1, if_pos h1]
        rfl
      · rw [if_neg h1, if_neg h1]
        cases List.lookup z g.d with
        | none => rfl
        | some glyph =>
          show (if glyph = g.onGlyph then some (t + z, depth + 1) else none)
            = Option.map (pshift t)
              (if glyph = g.onGlyph then some (z, depth + 1) else none)
          by_cases h2 : glyph = g.onGlyph
          · rw [if_pos h2, if_pos h2]
            rfl
          · rw [if_neg h2, if_neg h2]
            rfl
    rw [hf]
    cases hx : (if (List.lookup z s2).isSome = true then none
        else match List.lookup z g.d with
          | none => none
          | some glyph => if glyph = g.onGlyph then some (z, depth + 1) else none) with
    | none => rfl
    | some b => rfl

theorem bfsAux_shift (g : ZGrid) (t : Zc) (target : Option Zc) (maxD : Option Nat) :
    ∀ (fuel : Nat) (seen queue : List (Zc × Nat)),
      bfsAux (gshift t g) (target.map (zshift t)) maxD fuel
        (seen.map (pshift t)) (queue.map (pshift t))
      = (bfsAux g target maxD fuel seen queue).map (pshift t) := by
  intro fuel
  induction fuel with
  | zero => intro seen queue; simp [bfsAux]
  | succ fuel ih =>
    intro seen queue
    match queue with
    | [] => simp [bfsAux]
    | (z0, depth) :: rest =>
      simp only [List.map_cons, pshift, bfsAux]
      split
      · rfl
      · rw [zgLookupMapPshift]
        by_cases hs : (List.lookup z0 seen).isSome = true
        · rw [if_pos hs, if_pos hs]
          exact ih seen rest
        · rw [if_neg hs, if_neg hs]
          have hseen2 : List.map (pshift t) seen ++ [(t + z0, depth)]
              = (seen ++ [(z0, depth)]).map (pshift t) := by
            simp [pshift]
          rw [hseen2]
          by_cases ht : target = some z0
          · rw [if_pos ((option_map_zshift_eq_some t target z0).mpr ht), if_pos ht]
          · rw [if_neg (fun hh => ht ((option_map_zshift_eq_some t target z0).mp hh)),
                if_neg ht]
            rw [near4_shift, bfs_enq_shift g t depth (seen ++ [(z0, depth)]) (near4 z0),
                ← List.map_append]
            exact ih (seen ++ [(z0, depth)]) _

theorem bfs_shift (g : ZGrid) (t : Zc) (target : Option Zc) (z0 : Zc) (maxD : Option Nat) :
    (gshift t g).bfs (target.map (zshift t)) (t + z0) maxD
      = (g.bfs target z0 maxD).map (List.map (pshift t)) := by
  unfold ZGrid.bfs
  rw [show List.lookup (t + z0) (gshift t g).d = List.lookup z0 g.d from
    zgLookupMapPshift t z0 g.d]
  cases hl : List.lookup z0 g.d with
  | none => rfl
  | some g0 =>
    show (if g0 = g.onGlyph then
        some (bfsAux (gshift t g) (Option.map (zshift t) target) maxD
          (4 * (gshift t g).d.length + 2) [] [(t + z0, 0)])
      else none)
      = Option.map (List.map (pshift t))
        (if g0 = g.onGlyph then
          some (bfsAux g target maxD (4 * g.d.length + 2) [] [(z0, 0)]) else none)
    rw [show (gshift t g).d.length = g.d.length from List.length_map g.d (pshift t)]
    by_cases hg : g0 = g.onGlyph
    · rw [if_pos hg, if_pos hg]
      exact congrArg some (bfsAux_shift g t target maxD (4 * g.d.length + 2) [] [(z0, 0)])
    · rw [if_neg hg, if_neg hg]
      rfl

/-! ### C1 — BFS on a 3x3 all-on square -/

theorem bfs_not_on (g : ZGrid) (target : Option Zc) (z0 : Zc) (maxD : Option Nat)
    (h : ∀ glyph, g.d.lookup z0 = some glyph → glyph ≠ g.onGlyph) :
    g.bfs target z0 maxD = none := by
  unfold ZGrid.bfs
  cases hl : List.lookup z0 g.d with
  | none => rfl
  | some g0 =>
    show (if g0 = g.onGlyph then
        some (bfsAux g target maxD (4 * g.d.length + 2) [] [(z0, 0)]) else none) = none
    rw [if_neg (h g0 hl)]

/-- C1: on a grid whose stored cells are exactly the 9 all-`on` cells of a
3x3 rectangle (top-left corner `a + b*1j`), `bfs` from the center with no
target and no max depth returns a map holding all 9 positions — depth 0 at
the center, depth 1 at its four 4-connected neighbors, depth 2 at the four
corners; `bfs` started at any position whose stored glyph is not `on` (in
this grid: any absent position) fails instead of returning a map. -/
theorem bfs_3x3_depths (a b : Int) :
    (∃ m, (grid3x3 a b).bfs none ⟨a + 1, b + 1⟩ none = some m ∧
      m.length = 9 ∧
      m.lookup ⟨a + 1, b + 1⟩ = some 0 ∧
      (m.lookup ⟨a + 1, b⟩ = some 1 ∧ m.lookup ⟨a + 2, b + 1⟩ = some 1 ∧
       m.lookup ⟨a + 1, b + 2⟩ = some 1 ∧ m.lookup ⟨a, b + 1⟩ = some 1) ∧
      (m.lookup ⟨a, b⟩ = some 2 ∧ m.lookup ⟨a + 2, b⟩ = some 2 ∧
       m.lookup ⟨a, b + 2⟩ = some 2 ∧ m.lookup ⟨a + 2, b + 2⟩ = some 2)) ∧
    (∀ z : Zc, (grid3x3 a b).d.lookup z ≠ some '#' →
      (grid3x3 a b).bfs none z none = none) := by
  constructor
  · have hg : grid3x3 a b = gshift ⟨a, b⟩ (grid3x3 0 0) := by
      simp [grid3x3, gshift, pshift]
    have h0 : (grid3x3 0 0).bfs none ⟨1, 1⟩ none = some bfs3x3Result := by decide
    have hbfs : (grid3x3 a b).bfs none ⟨a + 1, b + 1⟩ none
        = some (bfs3x3Result.map (pshift ⟨a, b⟩)) := by
      rw [hg]
      have hs := bfs_shift (grid3x3 0 0) ⟨a, b⟩ none ⟨1, 1⟩ none
      rw [h0] at hs
      exact hs
    refine ⟨bfs3x3Result.map (pshift ⟨a, b⟩), hbfs, rfl, ?_, ⟨?_, ?_, ?_, ?_⟩,
      ⟨?_, ?_, ?_, ?_⟩⟩
    · rw [show (⟨a + 1, b + 1⟩ : Zc) = (⟨a, b⟩ : Zc) + ⟨1, 1⟩ by simp]
      exact (zgLookupMapPshift ⟨a, b⟩ ⟨1, 1⟩ bfs3x3Result).trans (by decide)
    · rw [show (⟨a + 1, b⟩ : Zc) = (⟨a, b⟩ : Zc) + ⟨1, 0⟩ by simp]
      exact (zgLookupMapPshift ⟨a, b⟩ ⟨1, 0⟩ bfs3x3Result).trans (by decide)
    · rw [show (⟨a + 2, b + 1⟩ : Zc) = (⟨a, b⟩ : Zc) + ⟨2, 1⟩ by simp]
      exact (zgLookupMapPshift ⟨a, b⟩ ⟨2, 1⟩ bfs3x3Result).trans (by decide)
    · rw [show (⟨a + 1, b + 2⟩ : Zc) = (⟨a, b⟩ : Zc) + ⟨1, 2⟩ by simp]
      exact (zgLookupMapPshift ⟨a, b⟩ ⟨1, 2⟩ bfs3x3Result).trans (by decide)
    · rw [show (⟨a, b + 1⟩ : Zc) = (⟨a, b⟩ : Zc) + ⟨0, 1⟩ by simp]
      exact (zgLookupMapPshift ⟨a, b⟩ ⟨0, 1⟩ bfs3x3Result).trans (by decide)
    · have h := zgLookupMapPshift (⟨a, b⟩ : Zc) (⟨0, 0⟩ : Zc) bfs3x3Result
      rw [show (⟨a, b⟩ : Zc) + ⟨0, 0⟩ = ⟨a, b⟩ by simp] at h
      exact h.trans (by decide)
    · rw [show (⟨a + 2, b⟩ : Zc) = (⟨a, b⟩ : Zc) + ⟨2, 0⟩ by simp]
      exact (zgLookupMapPshift ⟨a, b⟩ ⟨2, 0⟩ bfs3x3Result).trans (by decide)
    · rw [show (⟨a, b + 2⟩ : Zc) = (⟨a, b⟩ : Zc) + ⟨0, 2⟩ by simp]
      exact (zgLookupMapPshift ⟨a, b⟩ ⟨0, 2⟩ bfs3x3Result).trans (by decide)
    · rw [show (⟨a + 2, b + 2⟩ : Zc) = (⟨a, b⟩ : Zc) + ⟨2, 2⟩ by simp]
      exact (zgLookupMapPshift ⟨a, b⟩ ⟨2, 2⟩ bfs3x3Result).trans (by decide)
  · intro z hz
    apply bfs_not_on
    intro glyph hgl heq
    exact hz (by rw [hgl, heq]; rfl)

theorem bfs_3x3_depths_witness : (grid3x3 0 0).bfs none ⟨5, 5⟩ none = none :=
  (bfs_3x3_depths 0 0).2 ⟨5, 5⟩ (by decide)

/-! ### C2 — graph on a 3-cell line, and shortest-path queries -/

theorem contains_map_zshift (t z : Zc) : ∀ l : List Zc,
    (l.map (zshift t)).contains (t + z) = l.contains z := by
  intro l
  induction l with
  | nil => rfl
  | cons a rest ih =>
    simp only [List.map_cons, List.contains_cons, zshift, zc_beq_add_left, ih]

theorem addNode_shift (t : Zc) (G : Graph) (z : Zc) :
    (Gshift t G).addNode (t + z) = Gshift t (G.addNode z) := by
  unfold Graph.addNode
  rw [show (Gshift t G).nodes = G.nodes.map (zshift t) from rfl, contains_map_zshift]
  by_cases h : G.nodes.contains z = true
  · rw [if_pos h, if_pos h]
  · rw [if_neg h, if_neg h]
    simp [Gshift, zshift]

theorem hasEdge_shift (t : Zc) (G : Graph) (a b : Zc) :
    (Gshift t G).hasEdge (t + a) (t + b) = G.hasEdge a b := by
  unfold Graph.hasEdge
  rw [show (Gshift t G).edges = G.edges.map (fun e => (t + e.1, t + e.2)) from rfl]
  rw [List.any_map]
  congr 1
  funext e
  simp only [Function.comp, zc_beq_add_left]

theorem addEdge_shift (t : Zc) (G : Graph) (a b : Zc) :
    (Gshift t G).addEdge (t + a) (t + b) = Gshift t (G.addEdge a b) := by
  unfold Graph.addEdge
  rw [addNode_shift, addNode_shift, hasEdge_shift]
  by_cases h : ((G.addNode a).addNode b).hasEdge a b = true
  · rw [if_pos h, if_pos h]
  · rw [if_neg h, if_neg h]
    simp [Gshift]

theorem graphStepNode_shift (g : ZGrid) (t : Zc) (G : Graph) (pos : Zc) (glyph : Char) :
    graphStepNode (gshift t g) (Gshift t G) (t + pos) glyph
      = Gshift t (graphStepNode g G pos glyph) := by
  unfold graphStepNode
  rw [show (gshift t g).onGlyph = g.onGlyph from rfl]
  by_cases h : glyph ≠ g.onGlyph
  · rw [if_pos h, if_pos h, addNode_shift]
    simp [Graph.addExtra, Gshift]
  · rw [if_neg h, if_neg h, addNode_shift]

theorem graphStepRight_shift (g : ZGrid) (t : Zc) (glyphs : List Char) (G : Graph)
    (pos : Zc) :
    graphStepRight (gshift t g) glyphs (Gshift t G) (t + pos)
      = Gshift t (graphStepRight g glyphs G pos) := by
  unfold graphStepRight
  rw [show List.lookup (t + pos + 1) (gshift t g).d = List.lookup (pos + 1) g.d by
    rw [← zc_shift_add]
    exact zgLookupMapPshift t (pos + 1) g.d]
  by_cases h : (match List.lookup (pos + 1) g.d with
      | some gl => glyphs.contains gl
      | none => false) = true
  · rw [if_pos h, if_pos h, ← zc_shift_add, addEdge_shift]
  · rw [if_neg h, if_neg h]

theorem graphStepDown_shift (g : ZGrid) (t : Zc) (glyphs : List Char) (G : Graph)
    (pos : Zc) :
    graphStepDown (gshift t g) glyphs (Gshift t G) (t + pos)
      = Gshift t (graphStepDown g glyphs G pos) := by
  unfold graphStepDown
  rw [show List.lookup (t + pos + Zc.I) (gshift t g).d = List.lookup (pos + Zc.I) g.d by
    rw [← zc_shift_add]
    exact zgLookupMapPshift t (pos + Zc.I) g.d]
  by_cases h : (match List.lookup (pos + Zc.I) g.d with
      | some gl => glyphs.contains gl
      | none => false) = true
  · rw [if_pos h, if_pos h, ← zc_shift_add, addEdge_shift]
  · rw [if_neg h, if_neg h]

theorem graphStep_shift (g : ZGrid) (t : Zc) (glyphs : List Char) (G : Graph)
    (item : Zc × Char) :
    graphStep (gshift t g) glyphs (Gshift t G) (pshift t item)
      = Gshift t (graphStep g glyphs G item) := by
  obtain ⟨pos, glyph⟩ := item
  unfold graphStep
  show (if glyphs.contains glyph = true then _ else Gshift t G) = _
  by_cases hc : glyphs.contains glyph = true
  · rw [if_pos hc, if_pos hc]
    show graphStepDown (gshift t g) glyphs
        (graphStepRight (gshift t g) glyphs
          (graphStepNode (gshift t g) (Gshift t G) (t + pos) glyph) (t + pos)) (t + pos) = _
    rw [graphStepNode_shift, graphStepRight_shift, graphStepDown_shift]
  · rw [if_neg hc, if_neg hc]

theorem graphFold_shift (g : ZGrid) (t : Zc) (glyphs : List Char) :
    ∀ (items : List (Zc × Char)) (G : Graph),
      (items.map (pshift t)).foldl (graphStep (gshift t g) glyphs) (Gshift t G)
        = Gshift t (items.foldl (graphStep g glyphs) G) := by
  intro items
  induction items with
  | nil => intro G; rfl
  | cons item rest ih =>
    intro G
    simp only [List.map_cons, List.foldl_cons]
    rw [graphStep_shift]
    exact ih _

theorem graph_shift (g : ZGrid) (t : Zc) (extra : List Char) :
    (gshift t g).graph extra = Gshift t (g.graph extra) :=
  graphFold_shift g t (g.onGlyph :: extra) g.d Graph.emptyG

theorem adjFold_shift (t z : Zc) : ∀ (es : List (Zc × Zc)) (acc : List Zc),
    ((es.map (fun e => (t + e.1, t + e.2))).foldr (fun e acc =>
        if e.1 = t + z then e.2 :: acc else if e.2 = t + z then e.1 :: acc else acc)
      (acc.map (zshift t)))
    = (es.foldr (fun e acc =>
        if e.1 = z then e.2 :: acc else if e.2 = z then e.1 :: acc else acc) acc).map
        (zshift t) := by
  intro es
  induction es with
  | nil => intro acc; rfl
  | cons e rest ih =>
    intro acc
    obtain ⟨p, q⟩ := e
    simp only [List.map_cons, List.foldr_cons, ih]
    by_cases h1 : p = z
    · rw [if_pos (by rw [h1] : t + p = t + z), if_pos h1]
      rfl
    · rw [if_neg (fun hh => h1 (zc_add_left_cancel.mp hh)), if_neg h1]
      by_cases h2 : q = z
      · rw [if_pos (by rw [h2] : t + q = t + z), if_pos h2]
        rfl
      · rw [if_neg (fun hh => h2 (zc_add_left_cancel.mp hh)), if_neg h2]

theorem adj_shift (t : Zc) (G : Graph) (z : Zc) :
    (Gshift t G).adj (t + z) = (G.adj z).map (zshift t) :=
  adjFold_shift t z G.edges []

theorem splAux_shift (G : Graph) (t target : Zc) :
    ∀ (fuel : Nat) (seen : List Zc) (queue : List (Zc × Nat)),
      splAux (Gshift t G) (t + target) fuel (seen.map (zshift t)) (queue.map (pshift t))
        = splAux G target fuel seen queue := by
  intro fuel
  induction fuel with
  | zero => intro seen queue; rfl
  | succ fuel ih =>
    intro seen queue
    match queue with
    | [] => rfl
    | (z, dist) :: rest =>
      simp only [List.map_cons, pshift, splAux]
      by_cases hz : z = target
      · rw [if_pos (by rw [hz] : t + z = t + target), if_pos hz]
      · rw [if_neg (fun hh => hz (zc_add_left_cancel.mp hh)), if_neg hz]
        have hns : ((Gshift t G).adj (t + z)).filter
              (fun w => !((seen.map (zshift t)).contains w))
            = ((G.adj z).filter (fun w => !(seen.contains w))).map (zshift t) := by
          rw [adj_shift, List.filter_map]
          have hfun : ((fun w => !((seen.map (zshift t)).contains w)) ∘ zshift t)
              = (fun w => !(seen.contains w)) := by
            funext w
            show (!((seen.map (zshift t)).contains (zshift t w))) = (!(seen.contains w))
            rw [show zshift t w = t + w from rfl, contains_map_zshift]
          rw [hfun]
        rw [hns, ← List.map_append]
        rw [show (((G.adj z).filter (fun w => !(seen.contains w))).map (zshift t)).map
              (fun w => (w, dist + 1))
            = (((G.adj z).filter (fun w => !(seen.contains w))).map
                (fun w => (w, dist + 1))).map (pshift t) by
          rw [List.map_map, List.map_map]
          rfl]
        rw [← List.map_append]
        exact ih _ _

theorem spl_shift (G : Graph) (t source target : Zc) :
    (Gshift t G).spl (t + source) (t + target) = G.spl source target := by
  unfold Graph.spl
  rw [show (Gshift t G).nodes = G.nodes.map (zshift t) from rfl,
      contains_map_zshift, contains_map_zshift, List.length_map]
  by_cases h : (G.nodes.contains source && G.nodes.contains target) = true
  · rw [if_pos h, if_pos h]
    exact splAux_shift G t target (G.nodes.length + 1) [source] [(source, 0)]
  · rw [if_neg h, if_neg h]

theorem pathLength_shift (g : ZGrid) (t z z0 : Zc) :
    (gshift t g).pathLength (t + z) (t + z0) = g.pathLength z z0 := by
  unfold ZGrid.pathLength
  rw [graph_shift, spl_shift]

theorem delItem_shift (g : ZGrid) (t z : Zc) :
    (gshift t g).delItem (t + z) = gshift t (g.delItem z) := by
  unfold ZGrid.delItem gshift
  congr 1
  rw [List.filter_map]
  have hfun : ((fun (p : Zc × Char) => p.1 != t + z) ∘ pshift t)
      = (fun (p : Zc × Char) => p.1 != z) := by
    funext p
    show ((pshift t p).1 != t + z) = (p.1 != z)
    rw [show (pshift t p).1 = t + p.1 from rfl, zc_bne_add_left]
  rw [hfun]

/-- C2: for a grid whose stored cells are exactly `p`, `p+1`, `p+2`
(`p = a + b*1j`), all `on`, the graph built with the default node-glyph set
is the path `p — p+1 — p+2` (those three nodes, those two edges, no extra
markers), the shortest-path-length query from `p` to `p+2` returns 2, and
after deleting the middle cell the same query fails (no path exists). -/
theorem graph_line3 (a b : Int) :
    (lineGrid3 a b).graph [] =
      Graph.mk [⟨a, b⟩, ⟨a + 1, b⟩, ⟨a + 2, b⟩]
        [(⟨a, b⟩, ⟨a + 1, b⟩), (⟨a + 1, b⟩, ⟨a + 2, b⟩)] [] ∧
    (lineGrid3 a b).pathLength ⟨a + 2, b⟩ ⟨a, b⟩ = some 2 ∧
    ((lineGrid3 a b).delItem ⟨a + 1, b⟩).pathLength ⟨a + 2, b⟩ ⟨a, b⟩ = none := by
  have hg : lineGrid3 a b = gshift ⟨a, b⟩ (lineGrid3 0 0) := by
    simp [lineGrid3, gshift, pshift]
  refine ⟨?_, ?_, ?_⟩
  · rw [hg, graph_shift]
    rw [show (lineGrid3 0 0).graph [] =
        Graph.mk [⟨0, 0⟩, ⟨1, 0⟩, ⟨2, 0⟩]
          [(⟨0, 0⟩, ⟨1, 0⟩), (⟨1, 0⟩, ⟨2, 0⟩)] [] by decide]
    simp [Gshift, zshift]
  · rw [hg]
    have h := pathLength_shift (lineGrid3 0 0) ⟨a, b⟩ ⟨2, 0⟩ ⟨0, 0⟩
    rw [show (⟨a, b⟩ : Zc) + ⟨2, 0⟩ = ⟨a + 2, b⟩ by simp,
        show (⟨a, b⟩ : Zc) + ⟨0, 0⟩ = ⟨a, b⟩ by simp] at h
    exact h.trans (by decide)
  · rw [hg]
    have hdel := delItem_shift (lineGrid3 0 0) ⟨a, b⟩ ⟨1, 0⟩
    rw [show (⟨a, b⟩ : Zc) + ⟨1, 0⟩ = ⟨a + 1, b⟩ by simp] at hdel
    rw [hdel]
    have h := pathLength_shift ((lineGrid3 0 0).delItem ⟨1, 0⟩) ⟨a, b⟩ ⟨2, 0⟩ ⟨0, 0⟩
    rw [show (⟨a, b⟩ : Zc) + ⟨2, 0⟩ = ⟨a + 2, b⟩ by simp,
        show (⟨a, b⟩ : Zc) + ⟨0, 0⟩ = ⟨a, b⟩ by simp] at h
    exact h.trans (by decide)

/-! ### C3 — text-block round-trip through array export -/

theorem lookup_lineCells : ∀ (ln : List Char) (row col : Int) (j : Nat),
    (lineCells row col ln).lookup ⟨col + (j : Int), row⟩ = ln[j]? := by
  intro ln
  induction ln with
  | nil => intro row col j; simp [lineCells, List.lookup]
  | cons ch rest ih =>
    intro row col j
    cases j with
    | zero =>
      have hk : (⟨col + ((0 : Nat) : Int), row⟩ : Zc) = ⟨col, row⟩ := by simp
      rw [hk]
      simp [lineCells, List.lookup]
    | succ j' =>
      have hne : ((⟨col + ((j' + 1 : Nat) : Int), row⟩ : Zc) == ⟨col, row⟩) = false := by
        rw [zc_beq_def]
        simp only [decide_eq_false_iff_not]
        intro hh
        have hre := congrArg Zc.re hh
        simp only [Zc.re] at hre
        omega
      have hk : (⟨col + ((j' + 1 : Nat) : Int), row⟩ : Zc)
          = ⟨(col + 1) + ((j' : Nat) : Int), row⟩ := by
        simp only [Zc.mk.injEq, and_true]
        push_cast
        omega
      simp only [lineCells, List.lookup, hne]
      rw [hk, ih]
      simp

theorem lookup_lineCells_ne_row : ∀ (ln : List Char) (row col : Int) (z : Zc),
    z.im ≠ row → (lineCells row col ln).lookup z = none := by
  intro ln
  induction ln with
  | nil => intro row col z _; rfl
  | cons ch rest ih =>
    intro row col z hz
    have hne : (z == (⟨col, row⟩ : Zc)) = false := by
      rw [zc_beq_def]
      simp only [decide_eq_false_iff_not]
      intro hh
      exact hz (congrArg Zc.im hh)
    simp only [lineCells, List.lookup, hne]
    exact ih row (col + 1) z hz

theorem mem_lineCells : ∀ (ln : List Char) (row col : Int) (p : Zc × Char),
    p ∈ lineCells row col ln →
      p.1.im = row ∧ col ≤ p.1.re ∧ p.1.re < col + ln.length := by
  intro ln
  induction ln with
  | nil => intro row col p hp; simp [lineCells] at hp
  | cons ch rest ih =>
    intro row col p hp
    simp only [lineCells, List.mem_cons] at hp
    rcases hp with h | h
    · subst h
      refine ⟨rfl, le_refl _, ?_⟩
      simp only [List.length_cons]
      omega
    · obtain ⟨h1, h2, h3⟩ := ih row (col + 1) p h
      refine ⟨h1, by omega, ?_⟩
      simp only [List.length_cons]
      push_cast at h3 ⊢
      omega

theorem lookup_gridCells_lt_row : ∀ (lines : List (List Char)) (r0 : Int) (z : Zc),
    z.im < r0 → (gridCells r0 lines).lookup z = none := by
  intro lines
  induction lines with
  | nil => intro r0 z _; rfl
  | cons ln rest ih =>
    intro r0 z hz
    simp only [gridCells]
    rw [zgLookupAppend, lookup_lineCells_ne_row ln r0 0 z (by omega)]
    exact ih (r0 + 1) z (by omega)

theorem lookup_gridCells : ∀ (lines : List (List Char)) (r0 : Int) (ri j : Nat),
    (gridCells r0 lines).lookup ⟨(j : Int), r0 + (ri : Int)⟩
      = lines[ri]?.bind (fun l => l[j]?) := by
  intro lines
  induction lines with
  | nil => intro r0 ri j; simp [gridCells, List.lookup]
  | cons ln rest ih =>
    intro r0 ri j
    simp only [gridCells]
    rw [zgLookupAppend]
    cases ri with
    | zero =>
      have hk : (⟨(j : Int), r0 + ((0 : Nat) : Int)⟩ : Zc) = ⟨0 + (j : Int), r0⟩ := by
        simp
      rw [hk, lookup_lineCells ln r0 0 j]
      cases hv : ln[j]? with
      | some v => simp [hv]
      | none =>
        rw [lookup_gridCells_lt_row rest (r0 + 1) ⟨0 + (j : Int), r0⟩ (by show r0 < r0 + 1; omega)]
        simp [hv]
    | succ ri' =>
      rw [lookup_lineCells_ne_row ln r0 0 _ (by show r0 + ((ri' + 1 : Nat) : Int) ≠ r0; push_cast; omega)]
      have hk : (⟨(j : Int), r0 + ((ri' + 1 : Nat) : Int)⟩ : Zc)
          = ⟨(j : Int), (r0 + 1) + ((ri' : Nat) : Int)⟩ := by
        simp only [Zc.mk.injEq, true_and]
        push_cast
        omega
      rw [hk, ih (r0 + 1) ri' j]
      simp

theorem mem_gridCells : ∀ (lines : List (List Char)) (r0 : Int) (p : Zc × Char),
    p ∈ gridCells r0 lines →
      (r0 ≤ p.1.im ∧ p.1.im < r0 + lines.length) ∧
      (0 ≤ p.1.re ∧ ∃ l ∈ lines, p.1.re < l.length) := by
  intro lines
  induction lines with
  | nil => intro r0 p hp; simp [gridCells] at hp
  | cons ln rest ih =>
    intro r0 p hp
    simp only [gridCells, List.mem_append] at hp
    rcases hp with h | h
    · obtain ⟨h1, h2, h3⟩ := mem_lineCells ln r0 0 p h
      simp only [List.length_cons]
      refine ⟨⟨by omega, by push_cast; omega⟩, by omega, ln, List.mem_cons_self _ _, by omega⟩
    · obtain ⟨⟨h1, h2⟩, h3, l, hl, h4⟩ := ih (r0 + 1) p h
      simp only [List.length_cons]
      refine ⟨⟨by omega, by push_cast at h2 ⊢; omega⟩, h3, l, List.mem_cons_of_mem _ hl, h4⟩

theorem foldl_min_le : ∀ (xs : List Int) (acc y : Int), y ∈ acc :: xs → xs.foldl min acc ≤ y := by
  intro xs
  induction xs with
  | nil =>
    intro acc y hy
    simp only [List.mem_singleton] at hy
    subst hy
    exact le_refl _
  | cons x rest ih =>
    intro acc y hy
    simp only [List.foldl_cons]
    rcases List.mem_cons.mp hy with h | h
    · rw [h]
      exact le_trans (ih (min acc x) (min acc x) (List.mem_cons_self _ _)) (min_le_left _ _)
    · rcases List.mem_cons.mp h with h2 | h2
      · rw [h2]
        exact le_trans (ih (min acc x) (min acc x) (List.mem_cons_self _ _)) (min_le_right _ _)
      · exact ih (min acc x) y (List.mem_cons_of_mem _ h2)

theorem foldl_min_mem : ∀ (xs : List Int) (acc : Int), xs.foldl min acc ∈ acc :: xs := by
  intro xs
  induction xs with
  | nil => intro acc; exact List.mem_cons_self _ _
  | cons x rest ih =>
    intro acc
    simp only [List.foldl_cons]
    rcases List.mem_cons.mp (ih (min acc x)) with h | h
    · rcases min_choice acc x with hm | hm
      · rw [h, hm]
        exact List.mem_cons_self _ _
      · rw [h, hm]
        exact List.mem_cons_of_mem _ (List.mem_cons_self _ _)
    · exact List.mem_cons_of_mem _ (List.mem_cons_of_mem _ h)

theorem intMin_eq_of (l : List Int) (m : Int) (hmem : m ∈ l) (hle : ∀ x ∈ l, m ≤ x) :
    intMin l = some m := by
  cases l with
  | nil => simp at hmem
  | cons x xs =>
    show some (xs.foldl min x) = some m
    exact congrArg some
      (le_antisymm (foldl_min_le xs x m hmem) (hle _ (foldl_min_mem xs x)))

theorem foldl_max_ge : ∀ (xs : List Int) (acc y : Int), y ∈ acc :: xs → y ≤ xs.foldl max acc := by
  intro xs
  induction xs with
  | nil =>
    intro acc y hy
    simp only [List.mem_singleton] at hy
    subst hy
    exact le_refl _
  | cons x rest ih =>
    intro acc y hy
    simp only [List.foldl_cons]
    rcases List.mem_cons.mp hy with h | h
    · rw [h]
      exact le_trans (le_max_left _ _) (ih (max acc x) (max acc x) (List.mem_cons_self _ _))
    · rcases List.mem_cons.mp h with h2 | h2
      · rw [h2]
        exact le_trans (le_max_right _ _) (ih (max acc x) (max acc x) (List.mem_cons_self _ _))
      · exact ih (max acc x) y (List.mem_cons_of_mem _ h2)

theorem foldl_max_mem : ∀ (xs : List Int) (acc : Int), xs.foldl max acc ∈ acc :: xs := by
  intro xs
  induction xs with
  | nil => intro acc; exact List.mem_cons_self _ _
  | cons x rest ih =>
    intro acc
    simp only [List.foldl_cons]
    rcases List.mem_cons.mp (ih (max acc x)) with h | h
    · rcases max_choice acc x with hm | hm
      · rw [h, hm]
        exact List.mem_cons_self _ _
      · rw [h, hm]
        exact List.mem_cons_of_mem _ (List.mem_cons_self _ _)
    · exact List.mem_cons_of_mem _ (List.mem_cons_of_mem _ h)

theorem intMax_eq_of (l : List Int) (m : Int) (hmem : m ∈ l) (hge : ∀ x ∈ l, x ≤ m) :
    intMax l = some m := by
  cases l with
  | nil => simp at hmem
  | cons x xs =>
    show some (xs.foldl max x) = some m
    exact congrArg some
      (le_antisymm (hge _ (foldl_max_mem xs x)) (foldl_max_ge xs x m hmem))

/-- C3: building a grid from a rectangular multi-line text block (given as
its list of lines, every line of the same positive length `w`) and then
array-exporting it reproduces the block exactly, glyph for glyph — the dense
row-major array's entry at `(row, column)` is the character at that line and
offset, and no entry is an `off` gap filler. -/
theorem ofLines_toArray (lines : List (List Char)) (onc offc : Char) (w : Nat)
    (hne : lines ≠ []) (hw : 0 < w) (hrect : ∀ l ∈ lines, l.length = w) :
    (ZGrid.ofLines lines onc offc).toArray = some lines := by
  have hlen0 : 0 < lines.length := List.length_pos.mpr hne
  have hlookup : ∀ (ri j : Nat), (gridCells 0 lines).lookup ⟨(j : Int), (ri : Int)⟩
      = lines[ri]?.bind (fun l => l[j]?) := by
    intro ri j
    have h := lookup_gridCells lines 0 ri j
    rw [show ((0 : Int) + (ri : Int)) = (ri : Int) by omega] at h
    exact h
  have hcellmem : ∀ (ri j : Nat), ri < lines.length → j < w →
      ∃ v, (Zc.mk (j : Int) (ri : Int), v) ∈ gridCells 0 lines := by
    intro ri j hri hj
    have hjl : j < lines[ri].length := by
      rw [hrect _ (lines.getElem_mem hri)]
      omega
    refine ⟨lines[ri].get ⟨j, hjl⟩, zgMemOfLookup ?_⟩
    rw [hlookup ri j, List.getElem?_eq_getElem hri]
    show (lines[ri][j]?) = _
    rw [List.getElem?_eq_getElem hjl]
    rfl
  have hxmin : intMin ((gridCells 0 lines).map (fun p => p.1.re)) = some 0 := by
    apply intMin_eq_of
    · obtain ⟨v, hv⟩ := hcellmem 0 0 hlen0 hw
      exact List.mem_map.mpr ⟨_, hv, by simp⟩
    · intro x hx
      obtain ⟨p, hp, he⟩ := List.mem_map.mp hx
      rw [← he]
      exact (mem_gridCells lines 0 p hp).2.1
  have hxmax : intMax ((gridCells 0 lines).map (fun p => p.1.re)) = some ((w : Int) - 1) := by
    apply intMax_eq_of
    · obtain ⟨v, hv⟩ := hcellmem 0 (w - 1) hlen0 (by omega)
      refine List.mem_map.mpr ⟨_, hv, ?_⟩
      show ((w - 1 : Nat) : Int) = (w : Int) - 1
      omega
    · intro x hx
      obtain ⟨p, hp, he⟩ := List.mem_map.mp hx
      rw [← he]
      obtain ⟨l, hl, hlt⟩ := (mem_gridCells lines 0 p hp).2.2
      rw [hrect l hl] at hlt
      omega
  have hymin : intMin ((gridCells 0 lines).map (fun p => p.1.im)) = some 0 := by
    apply intMin_eq_of
    · obtain ⟨v, hv⟩ := hcellmem 0 0 hlen0 hw
      exact List.mem_map.mpr ⟨_, hv, by simp⟩
    · intro y hy
      obtain ⟨p, hp, he⟩ := List.mem_map.mp hy
      rw [← he]
      exact ((mem_gridCells lines 0 p hp).1.1)
  have hymax : intMax ((gridCells 0 lines).map (fun p => p.1.im))
      = some ((lines.length : Int) - 1) := by
    apply intMax_eq_of
    · obtain ⟨v, hv⟩ := hcellmem (lines.length - 1) 0 (by omega) hw
      refine List.mem_map.mpr ⟨_, hv, ?_⟩
      show ((lines.length - 1 : Nat) : Int) = (lines.length : Int) - 1
      omega
    · intro y hy
      obtain ⟨p, hp, he⟩ := List.mem_map.mp hy
      rw [← he]
      have := (mem_gridCells lines 0 p hp).1.2
      omega
  simp only [ZGrid.ofLines, ZGrid.toArray, hxmin, hxmax, hymin, hymax]
  rw [show (((lines.length : Int) - 1) - 0).toNat + 1 = lines.length by omega]
  rw [show (((w : Int) - 1) - 0).toNat + 1 = w by omega]
  refine congrArg some ?_
  apply List.ext_getElem
  · simp
  · intro r h1 h2
    simp only [List.getElem_map, List.getElem_range]
    apply List.ext_getElem
    · simp [hrect _ (lines.getElem_mem h2)]
    · intro c hc1 hc2
      simp only [List.getElem_map, List.getElem_range]
      rw [show (Zc.mk (0 + (c : Int)) (0 + (r : Int))) = Zc.mk (c : Int) (r : Int) by simp]
      rw [hlookup r c, List.getElem?_eq_getElem h2]
      show ((lines[r][c]?).getD offc) = _
      rw [List.getElem?_eq_getElem hc2]
      rfl

theorem ofLines_toArray_witness :
    (ZGrid.ofLines [['a', 'b', 'c'], ['d', 'e', 'f']] '#' '.').toArray
      = some [['a', 'b', 'c'], ['d', 'e', 'f']] :=
  ofLines_toArray [['a', 'b', 'c'], ['d', 'e', 'f']] '#' '.' 3
    (by decide) (by decide) (by decide)
